import Mathlib

/-!
Shallow embedding of the audio-analysis core of the pitch-shifter repository:
the class KeyDetectorService with its two estimators detectTuningReference and
detectKey, the Pearson correlation helper correlate, and the profile rotation
helper rotate.

Modelling conventions:
* Audio samples, spectrum magnitudes and chroma energies are rationals; the
  source works with JavaScript doubles, and every comparison and branch the
  estimators perform on these values is exact sign or order information that
  the rational model reproduces (see the JSF bridge lemmas below).
* The one place where the source produces genuinely non-rational numbers is
  the Pearson correlation value sumXy / sqrt(sumXx * sumYy).  A correlation
  is represented symbolically by the constructor JSF.fin num denSq meaning
  num / sqrt(denSq); JSF.nan, JSF.pinf, JSF.ninf represent the IEEE values
  NaN, +Infinity, -Infinity that a zero denominator produces.  The strict
  comparison jsGT implements the JavaScript > on these values and is proved
  to agree with the real-number comparison (sgt_eq_true_iff below).
* The log2 / pow based cents arithmetic of detectTuningReference is embedded
  over the real numbers (Real.logb, Real.rpow, round); round on reals rounds
  halves towards positive infinity, exactly like Math.round.
* The external Meyda feature extractors (amplitudeSpectrum and chroma) are
  not code of this repository; they enter as function parameters sf and cf.
  A result of none models both a null return and a thrown exception, which
  the source swallows in try/catch.  Per the external-interface contract the
  chroma primitive returns a 12-element vector, modelled as Fin 12 → ℚ.
* JavaScript Array.prototype.slice is List.drop followed by List.take, and
  out-of-range reads (arr[i] with i negative or beyond the length), which
  yield undefined in JavaScript, are modelled with Option where they can
  occur (the rotate helper).
-/

/-- One decoded audio buffer: channel-0 samples plus the sample rate.  Web
Audio guarantees a positive sample rate, recorded as a proof field. -/
structure AudioBuffer where
  channel0 : List ℚ
  sampleRate : ℚ
  sampleRate_pos : 0 < sampleRate

/-- Krumhansl-Schmuckler major profile, from the source field MAJOR_PROFILE. -/
def MAJOR_PROFILE : List ℚ :=
  [6.35, 2.23, 3.48, 2.33, 4.38, 4.09, 2.52, 5.19, 2.39, 3.66, 2.29, 2.88]

/-- Krumhansl-Schmuckler minor profile, from the source field MINOR_PROFILE. -/
def MINOR_PROFILE : List ℚ :=
  [6.33, 2.68, 3.52, 5.38, 2.60, 3.53, 2.54, 4.75, 3.98, 2.69, 3.34, 3.17]

/-- Pitch-class names, from the source field KEYS. -/
def KEYS : List String :=
  ["C", "C#", "D", "D#", "E", "F"] ++ ["F#", "G", "G#", "A", "A#", "B"]

/-- The service object: its three readonly fields.  The source class has no
other instance state and its constructor is empty. -/
structure KeyDetectorService where
  majorProfile : List ℚ
  minorProfile : List ℚ
  keys : List String

/-- The injected singleton instance with the constant field values. -/
def theService : KeyDetectorService := ⟨MAJOR_PROFILE, MINOR_PROFILE, KEYS⟩

/-- JavaScript array read arr[idx]: undefined (none) when idx is negative or
past the end. -/
def jsIndex (arr : List ℚ) (idx : ℤ) : Option ℚ :=
  if idx < 0 then none else arr.get? idx.toNat

/-- Source method rotate: rotated[i] = arr[(i - n + len) % len].  JavaScript %
is the truncated remainder (Int.tmod), so for n > i + len the index is
negative and the read yields undefined, modelled as none. -/
def rotate (arr : List ℚ) (n : ℕ) : List (Option ℚ) :=
  (List.range arr.length).map fun (i : ℕ) =>
    jsIndex arr (((i : ℤ) - (n : ℤ) + (arr.length : ℤ)).tmod (arr.length : ℤ))

/-- The in-range rotation actually exercised by detectKey (n < 12): index i
of the rotation reads source index (i - n + 12) mod 12.  The bridge lemma
rotate_eq_rotateFin proves it agrees with rotate there. -/
def rotateFin (p : Fin 12 → ℚ) (n : ℕ) : Fin 12 → ℚ :=
  fun i => p ⟨(i.val + (12 - n % 12)) % 12, Nat.mod_lt _ (by norm_num)⟩

/-- View of a 12-element list as a function on Fin 12. -/
def profFn (l : List ℚ) : Fin 12 → ℚ := fun i => l.getD i 0

/-- Symbolic value of a JavaScript double of the form num / sqrt(denSq),
together with the exceptional IEEE values. -/
inductive JSF where
  | nan : JSF
  | pinf : JSF
  | ninf : JSF
  | fin (num denSq : ℚ) : JSF
deriving DecidableEq

/-- Real value denoted by a JSF (exceptional values are mapped to 0; the
development only reads jsVal on fin). -/
noncomputable def jsVal : JSF → ℝ
  | JSF.fin a b => (a : ℝ) / Real.sqrt (b : ℝ)
  | _ => 0

/-- Build the JSF denoted by a / sqrt(b): a genuine real when 0 < b, and for
b = 0 the IEEE results of dividing by +0 (sign of a decides Inf vs NaN);
sqrt of a negative argument is NaN, hence so is the quotient. -/
def toJSF (a b : ℚ) : JSF :=
  if 0 < b then JSF.fin a b
  else if b = 0 then
    if 0 < a then JSF.pinf else if a < 0 then JSF.ninf else JSF.nan
  else JSF.nan

/-- Decide a / sqrt(b) > c / sqrt(d) for 0 < b and 0 < d by clearing the
square roots: both sides positive compare by a^2 d > c^2 b, mixed signs are
decided by the signs, both nonpositive compare reversed.  Proved faithful to
the real comparison in sgt_eq_true_iff. -/
def sgt (a b c d : ℚ) : Bool :=
  if 0 < a then
    if 0 < c then decide (c ^ 2 * b < a ^ 2 * d) else true
  else
    if 0 < c then false else decide (a ^ 2 * d < c ^ 2 * b)

/-- JavaScript strict > on symbolic doubles: any comparison with NaN is
false, +Infinity exceeds everything but itself and NaN, -Infinity exceeds
nothing, finite values compare via sgt. -/
def jsGT : JSF → JSF → Bool
  | JSF.nan, _ => false
  | _, JSF.nan => false
  | JSF.pinf, JSF.pinf => false
  | JSF.pinf, _ => true
  | JSF.ninf, _ => false
  | JSF.fin _ _, JSF.pinf => false
  | JSF.fin _ _, JSF.ninf => true
  | JSF.fin a b, JSF.fin c d => sgt a b c d

/-- Source method correlate: Pearson correlation of a chroma vector against a
profile, returned symbolically as sumXy / sqrt(sumXx * sumYy). -/
def correlate (chroma profile : Fin 12 → ℚ) : JSF :=
  let meanX : ℚ := (∑ i : Fin 12, chroma i) / 12
  let meanY : ℚ := (∑ i : Fin 12, profile i) / 12
  let sumXx : ℚ := ∑ i : Fin 12, (chroma i - meanX) * (chroma i - meanX)
  let sumYy : ℚ := ∑ i : Fin 12, (profile i - meanY) * (profile i - meanY)
  let sumXy : ℚ := ∑ i : Fin 12, (chroma i - meanX) * (profile i - meanY)
  toJSF sumXy (sumXx * sumYy)

/-- The mean-centered cross sum sumXy of correlate, as a standalone value. -/
def corrXy (x y : Fin 12 → ℚ) : ℚ :=
  ∑ i : Fin 12,
    (x i - (∑ t : Fin 12, x t) / 12) * (y i - (∑ t : Fin 12, y t) / 12)

/-- The mean-centered self sum sumXx of correlate, as a standalone value. -/
def corrXx (x : Fin 12 → ℚ) : ℚ :=
  ∑ i : Fin 12,
    (x i - (∑ t : Fin 12, x t) / 12) * (x i - (∑ t : Fin 12, x t) / 12)

/-- The 24 candidate profiles of detectKey in evaluation order: the 12 major
rotations (tonic index ascending), then the 12 minor rotations, each paired
with its key name. -/
def candProfs (s : KeyDetectorService) : List ((Fin 12 → ℚ) × String) :=
  ((List.range 12).map fun i =>
    (rotateFin (profFn s.majorProfile) i, s.keys.getD i "" ++ " Major")) ++
  ((List.range 12).map fun i =>
    (rotateFin (profFn s.minorProfile) i, s.keys.getD i "" ++ " Minor"))

/-- The 24 candidate (name, correlation score) pairs for a given averaged
chroma vector, in evaluation order. -/
def selCandidates (s : KeyDetectorService) (chroma : Fin 12 → ℚ) :
    List (String × JSF) :=
  (candProfs s).map fun p => (p.2, correlate chroma p.1)

/-- One step of the best-candidate scan: replace the running best exactly
when the new correlation is strictly greater (JavaScript >). -/
def selStep (st : JSF × String) (c : String × JSF) : JSF × String :=
  if jsGT c.2 st.1 then (c.2, c.1) else st

/-- The best-candidate scan: bestCorrelation starts at -Infinity and bestKey
at the empty string, as in the source. -/
def runSel (l : List (String × JSF)) : JSF × String :=
  l.foldl selStep (JSF.ninf, "")

/-- The correlation phase of detectKey: scan the 24 candidates and return the
best key name. -/
def detectKeySelOn (s : KeyDetectorService) (chroma : Fin 12 → ℚ) : String :=
  (runSel (selCandidates s chroma)).2

/-- The fixed list of the 24 key names in evaluation order. -/
def keyNameList : List String := (candProfs theService).map Prod.snd

/-- Derived quantity buffer.duration = length / sampleRate (seconds). -/
def durationQ (buf : AudioBuffer) : ℚ :=
  (buf.channel0.length : ℚ) / buf.sampleRate

/-- durationToAnalyze = Math.min(30, buffer.duration). -/
def durationToAnalyze (buf : AudioBuffer) : ℚ := min 30 (durationQ buf)

/-- startSample = Math.floor((duration / 2 - durationToAnalyze / 2) * sr). -/
def startSample (buf : AudioBuffer) : ℤ :=
  Int.floor ((durationQ buf / 2 - durationToAnalyze buf / 2) * buf.sampleRate)

/-- safeStart = Math.max(0, startSample). -/
def safeStart (buf : AudioBuffer) : ℤ := max 0 (startSample buf)

/-- endSample = Math.min(safeStart + durationToAnalyze * sampleRate,
buffer.length); in general a fractional quantity. -/
def endSampleQ (buf : AudioBuffer) : ℚ :=
  min ((safeStart buf : ℚ) + durationToAnalyze buf * buf.sampleRate)
    (buf.channel0.length : ℚ)

/-- The chroma accumulation loop of detectKey: starting at i, while
i < endSample - 4096, slice a 4096-sample chunk (breaking if it is short,
which the guard in fact prevents), extract chroma, and on success add it
into the accumulator and bump the frame count; then advance i by the hop
8192.  Structural fuel makes the while loop a total function; detectKey
supplies fuel exceeding the greatest possible iteration count. -/
def keyLoop (cf : List ℚ → Option (Fin 12 → ℚ)) (data : List ℚ) (endS : ℚ) :
    ℕ → ℕ → (Fin 12 → ℚ) → ℕ → (Fin 12 → ℚ) × ℕ
  | 0, _, acc, frames => (acc, frames)
  | fuel + 1, i, acc, frames =>
    if (i : ℚ) < endS - 4096 then
      let chunk := (data.drop i).take 4096
      if chunk.length < 4096 then (acc, frames)
      else
        match cf chunk with
        | some c => keyLoop cf data endS fuel (i + 8192)
            (fun k => acc k + c k) (frames + 1)
        | none => keyLoop cf data endS fuel (i + 8192) acc frames
    else (acc, frames)

/-- The accumulated total chroma and frame count of detectKey on a buffer. -/
def keyAccum (cf : List ℚ → Option (Fin 12 → ℚ)) (buf : AudioBuffer) :
    (Fin 12 → ℚ) × ℕ :=
  keyLoop cf buf.channel0 (endSampleQ buf) (buf.channel0.length + 1)
    (safeStart buf).toNat (fun _ => 0) 0

/-- Source method detectKey: accumulate chroma over hop-spaced frames of the
centered analysis window, return "Unknown" when no frame was analyzed, and
otherwise correlate the frame-averaged chroma against the 24 candidates. -/
def KeyDetectorService.detectKey (s : KeyDetectorService)
    (cf : List ℚ → Option (Fin 12 → ℚ)) (buf : AudioBuffer) : String :=
  let r := keyAccum cf buf
  if r.2 = 0 then "Unknown"
  else detectKeySelOn s (fun k => r.1 k / (r.2 : ℚ))

/-- The canonical detectKey of the injected singleton service. -/
def detectKey (cf : List ℚ → Option (Fin 12 → ℚ)) (buf : AudioBuffer) :
    String :=
  theService.detectKey cf buf

/-- Declarative list of the frame start offsets the detectKey loop visits:
i, i + 8192, i + 16384, ... for as long as the offset stays strictly below
endSample - 4096 (same guard and fuel as keyLoop). -/
def frameOffsets (endS : ℚ) : ℕ → ℕ → List ℕ
  | 0, _ => []
  | fuel + 1, i =>
    if (i : ℚ) < endS - 4096 then i :: frameOffsets endS fuel (i + 8192)
    else []

/-- The frame start offsets detectKey analyzes on a buffer. -/
def analyzedOffsets (buf : AudioBuffer) : List ℕ :=
  frameOffsets (endSampleQ buf) (buf.channel0.length + 1)
    (safeStart buf).toNat

/-- The peak search of detectTuningReference on one spectrum frame: scan bins
k with 10 ≤ k < length / 2 (the source loop header, with its Nyquist intent
recorded in a comment) for the maximal magnitude, starting from the
sentinels maxVal = -1, maxBin = -1. -/
def peakSearch (spectrum : List ℚ) : ℚ × ℤ :=
  ((List.range ((spectrum.length + 1) / 2)).drop 10).foldl
    (fun st k => if st.1 < spectrum.getD k 0 then (spectrum.getD k 0, (k : ℤ))
      else st)
    (-1, -1)

/-- Chunk start offsets of detectTuningReference: i * step for i < 50 with
step = floor(length / 50), stopping at the first chunk that would overrun
the buffer (the loop break). -/
def tuningChunkStarts (len : ℕ) : List ℕ :=
  (List.range 50).takeWhile fun i => i * (len / 50) + 4096 ≤ len

/-- Peak (magnitude, bin) of every chunk whose spectrum extraction succeeds,
in chunk order. -/
def chunkPeaks (sf : List ℚ → Option (List ℚ)) (buf : AudioBuffer) :
    List (ℚ × ℤ) :=
  (tuningChunkStarts buf.channel0.length).filterMap fun st =>
    (sf ((buf.channel0.drop st).take 4096)).map peakSearch

/-- Cents deviation of a peak bin from the nearest A440-grid semitone:
freq = bin * (sampleRate / 4096), midi = 69 + 12 * log2(freq / 440),
deviation = (midi - round(midi)) * 100. -/
noncomputable def deviation (sr : ℚ) (bin : ℤ) : ℝ :=
  let freq : ℚ := bin * (sr / 4096)
  let midi : ℝ := 69 + 12 * Real.logb 2 ((freq : ℝ) / 440)
  (midi - (round midi : ℤ)) * 100

/-- The accumulation loop of detectTuningReference: for each chunk peak with
magnitude above the 0.1 silence threshold, add its cents deviation and count
it as valid. -/
noncomputable def tuningAccum (sr : ℚ) (peaks : List (ℚ × ℤ)) : ℝ × ℕ :=
  peaks.foldl
    (fun st p => if (1 : ℚ) / 10 < p.1 then (st.1 + deviation sr p.2, st.2 + 1)
      else st)
    (0, 0)

/-- Source method detectTuningReference: average the cents deviations of the
valid chunks and map back through 440 * 2 ^ (avg / 1200), rounding to an
integer; 440 exactly when no chunk is valid. -/
noncomputable def KeyDetectorService.detectTuningReference
    (_s : KeyDetectorService) (sf : List ℚ → Option (List ℚ))
    (buf : AudioBuffer) : ℤ :=
  let r := tuningAccum buf.sampleRate (chunkPeaks sf buf)
  if r.2 = 0 then 440
  else round ((440 : ℝ) * (2 : ℝ) ^ ((r.1 / (r.2 : ℝ)) / 1200))

/-- The canonical detectTuningReference of the injected singleton service. -/
noncomputable def detectTuningReference (sf : List ℚ → Option (List ℚ))
    (buf : AudioBuffer) : ℤ :=
  theService.detectTuningReference sf buf

/-- The valid chunk peaks: those above the silence threshold. -/
def validPeaks (sf : List ℚ → Option (List ℚ)) (buf : AudioBuffer) :
    List (ℚ × ℤ) :=
  (chunkPeaks sf buf).filter fun p => (1 : ℚ) / 10 < p.1

/-- The peak bins of the valid chunks. -/
def validBins (sf : List ℚ → Option (List ℚ)) (buf : AudioBuffer) : List ℤ :=
  (validPeaks sf buf).map Prod.snd

/-- The number of valid chunks. -/
def validCount (sf : List ℚ → Option (List ℚ)) (buf : AudioBuffer) : ℕ :=
  (validPeaks sf buf).length

/-- One step of the declarative description of the detectKey accumulation:
at frame offset n, extract chroma from the 4096-sample chunk there and on
success add it element-wise and bump the frame count. -/
def keyStep (cf : List ℚ → Option (Fin 12 → ℚ)) (data : List ℚ)
    (st : (Fin 12 → ℚ) × ℕ) (n : ℕ) : (Fin 12 → ℚ) × ℕ :=
  match cf ((data.drop n).take 4096) with
  | some c => (fun k => st.1 k + c k, st.2 + 1)
  | none => st

/-- Chroma extractor returning the all-zero vector on every frame (the
chroma of silence). -/
def zeroCf : List ℚ → Option (Fin 12 → ℚ) := fun _ => some (fun _ => 0)

/-- Chroma extractor that always fails (a null or throwing primitive). -/
def noneCf : List ℚ → Option (Fin 12 → ℚ) := fun _ => none

/-- Spectrum extractor that always fails (a null or throwing primitive). -/
def noneSf : List ℚ → Option (List ℚ) := fun _ => none

/-- A 22-bin spectrum frame with a single peak of magnitude 1 at bin 10. -/
def spec22 : List ℚ := (List.replicate 22 0).set 10 1

/-- Spectrum extractor returning spec22 for every chunk. -/
def constSf : List ℚ → Option (List ℚ) := fun _ => some spec22

/-- A 40-bin spectrum frame: magnitude 1 at bin 15 and magnitude 5 at bin
30, zero elsewhere. -/
def spec40 : List ℚ := ((List.replicate 40 0).set 15 1).set 30 5

/-- Chroma extractor returning the unrotated major profile on every frame. -/
def majCf : List ℚ → Option (Fin 12 → ℚ) := fun _ => some (profFn MAJOR_PROFILE)

/-- A 4097-sample silent buffer at 1000 Hz: one sample more than an analysis
window. -/
def buf4097 : AudioBuffer := ⟨List.replicate 4097 0, 1000, by norm_num⟩

/-- A 4096-sample silent buffer at 1000 Hz: exactly one analysis window. -/
def buf4096 : AudioBuffer := ⟨List.replicate 4096 0, 1000, by norm_num⟩

/-- The empty buffer. -/
def bufEmpty : AudioBuffer := ⟨[], 1, by norm_num⟩

/-- The chroma vector with energy 1 in pitch class C only. -/
def e0chroma : Fin 12 → ℚ := fun k => if k = 0 then 1 else 0

/-- A method call of detectKey with the receiver state threaded explicitly:
the body assigns no instance field, so the post-state is the pre-state. -/
def KeyDetectorService.detectKeyCall (s : KeyDetectorService)
    (cf : List ℚ → Option (Fin 12 → ℚ)) (buf : AudioBuffer) :
    String × KeyDetectorService :=
  (s.detectKey cf buf, s)

/-- A method call of detectTuningReference with the receiver state threaded
explicitly: the body assigns no instance field. -/
noncomputable def KeyDetectorService.detectTuningCall (s : KeyDetectorService)
    (sf : List ℚ → Option (List ℚ)) (buf : AudioBuffer) :
    ℤ × KeyDetectorService :=
  (s.detectTuningReference sf buf, s)

/-! Bridge lemmas: the Boolean comparison sgt used by the embedding agrees
with the real-number comparison of the JavaScript doubles it stands for. -/

theorem sgt_eq_true_iff (a b c d : ℚ) (hb : 0 < b) (hd : 0 < d) :
    sgt a b c d = true ↔
      (c : ℝ) / Real.sqrt (d : ℝ) < (a : ℝ) / Real.sqrt (b : ℝ) := by
  have hbR : (0 : ℝ) < (b : ℝ) := by exact_mod_cast hb
  have hdR : (0 : ℝ) < (d : ℝ) := by exact_mod_cast hd
  have hsb : 0 < Real.sqrt (b : ℝ) := Real.sqrt_pos.mpr hbR
  have hsd : 0 < Real.sqrt (d : ℝ) := Real.sqrt_pos.mpr hdR
  rw [div_lt_div_iff₀ hsd hsb]
  unfold sgt
  by_cases ha : 0 < a
  · have haR : (0 : ℝ) < (a : ℝ) := by exact_mod_cast ha
    by_cases hc : 0 < c
    · have hcR : (0 : ℝ) < (c : ℝ) := by exact_mod_cast hc
      simp only [if_pos ha, if_pos hc, decide_eq_true_eq]
      have e1 : ((c : ℝ) * Real.sqrt (b : ℝ)) * ((c : ℝ) * Real.sqrt (b : ℝ))
          = (c : ℝ) ^ 2 * (b : ℝ) := by
        rw [mul_mul_mul_comm, Real.mul_self_sqrt hbR.le, sq]
      have e2 : ((a : ℝ) * Real.sqrt (d : ℝ)) * ((a : ℝ) * Real.sqrt (d : ℝ))
          = (a : ℝ) ^ 2 * (d : ℝ) := by
        rw [mul_mul_mul_comm, Real.mul_self_sqrt hdR.le, sq]
      have hR : ((c : ℝ) * Real.sqrt (b : ℝ) < (a : ℝ) * Real.sqrt (d : ℝ))
          ↔ (c : ℝ) ^ 2 * (b : ℝ) < (a : ℝ) ^ 2 * (d : ℝ) := by
        rw [mul_self_lt_mul_self_iff (by positivity) (by positivity), e1, e2]
      rw [hR]
      exact ⟨fun h => by exact_mod_cast h, fun h => by exact_mod_cast h⟩
    · have hcR : (c : ℝ) ≤ 0 := by exact_mod_cast not_lt.mp hc
      rw [if_pos ha, if_neg hc]
      refine iff_of_true rfl ?_
      calc (c : ℝ) * Real.sqrt (b : ℝ) ≤ 0 :=
            mul_nonpos_of_nonpos_of_nonneg hcR hsb.le
        _ < (a : ℝ) * Real.sqrt (d : ℝ) := by positivity
  · have haR : (a : ℝ) ≤ 0 := by exact_mod_cast not_lt.mp ha
    by_cases hc : 0 < c
    · have hcR : (0 : ℝ) < (c : ℝ) := by exact_mod_cast hc
      rw [if_neg ha, if_pos hc]
      refine iff_of_false (by simp) (not_lt.mpr ?_)
      calc (a : ℝ) * Real.sqrt (d : ℝ) ≤ 0 :=
            mul_nonpos_of_nonpos_of_nonneg haR hsd.le
        _ ≤ (c : ℝ) * Real.sqrt (b : ℝ) := by positivity
    · have hcR : (c : ℝ) ≤ 0 := by exact_mod_cast not_lt.mp hc
      simp only [if_neg ha, if_neg hc, decide_eq_true_eq]
      have hstep : ((c : ℝ) * Real.sqrt (b : ℝ) < (a : ℝ) * Real.sqrt (d : ℝ))
          ↔ (-(a : ℝ)) * Real.sqrt (d : ℝ) < (-(c : ℝ)) * Real.sqrt (b : ℝ) := by
        constructor
        · intro h; nlinarith
        · intro h; nlinarith
      have e1 : ((-(a : ℝ)) * Real.sqrt (d : ℝ)) * ((-(a : ℝ)) * Real.sqrt (d : ℝ))
          = (a : ℝ) ^ 2 * (d : ℝ) := by
        rw [mul_mul_mul_comm, Real.mul_self_sqrt hdR.le]; ring
      have e2 : ((-(c : ℝ)) * Real.sqrt (b : ℝ)) * ((-(c : ℝ)) * Real.sqrt (b : ℝ))
          = (c : ℝ) ^ 2 * (b : ℝ) := by
        rw [mul_mul_mul_comm, Real.mul_self_sqrt hbR.le]; ring
      have hR : ((-(a : ℝ)) * Real.sqrt (d : ℝ) < (-(c : ℝ)) * Real.sqrt (b : ℝ))
          ↔ (a : ℝ) ^ 2 * (d : ℝ) < (c : ℝ) ^ 2 * (b : ℝ) := by
        rw [mul_self_lt_mul_self_iff (mul_nonneg (neg_nonneg.mpr haR) hsd.le)
          (mul_nonneg (neg_nonneg.mpr hcR) hsb.le), e1, e2]
      rw [hstep, hR]
      exact ⟨fun h => by exact_mod_cast h, fun h => by exact_mod_cast h⟩

/-- Any correlation value is at most 1: the Cauchy-Schwarz inequality for
the mean-centered vectors bounds sumXy by sqrt(sumXx * sumYy). -/
theorem jsVal_correlate_le_one (x y : Fin 12 → ℚ) :
    jsVal (correlate x y) ≤ 1 := by
  have key : ∀ a b : ℚ, a ^ 2 ≤ b → jsVal (toJSF a b) ≤ 1 := by
    intro a b hab
    unfold toJSF
    by_cases hbpos : 0 < b
    · rw [if_pos hbpos]
      show (a : ℝ) / Real.sqrt (b : ℝ) ≤ 1
      by_cases hapos : 0 < a
      · have haR : (0 : ℝ) ≤ (a : ℝ) := by exact_mod_cast hapos.le
        have hbR : (0 : ℝ) ≤ (b : ℝ) := by exact_mod_cast hbpos.le
        rw [div_le_one (Real.sqrt_pos.mpr (by exact_mod_cast hbpos))]
        rw [Real.le_sqrt haR hbR]
        exact_mod_cast hab
      · have haR : (a : ℝ) ≤ 0 := by exact_mod_cast not_lt.mp hapos
        calc (a : ℝ) / Real.sqrt (b : ℝ) ≤ 0 :=
              div_nonpos_of_nonpos_of_nonneg haR (Real.sqrt_nonneg _)
          _ ≤ 1 := zero_le_one
    · rw [if_neg hbpos]
      by_cases hbz : b = 0
      · rw [if_pos hbz]
        by_cases h1 : 0 < a
        · rw [if_pos h1]; show (0 : ℝ) ≤ 1; exact zero_le_one
        · rw [if_neg h1]
          by_cases h2 : a < 0
          · rw [if_pos h2]; show (0 : ℝ) ≤ 1; exact zero_le_one
          · rw [if_neg h2]; show (0 : ℝ) ≤ 1; exact zero_le_one
      · rw [if_neg hbz]; show (0 : ℝ) ≤ 1; exact zero_le_one
  refine key _ _ ?_
  set mX : ℚ := (∑ i : Fin 12, x i) / 12 with hmX
  set mY : ℚ := (∑ i : Fin 12, y i) / 12 with hmY
  calc (∑ i : Fin 12, (x i - mX) * (y i - mY)) ^ 2
      ≤ (∑ i : Fin 12, (x i - mX) ^ 2) * ∑ i : Fin 12, (y i - mY) ^ 2 :=
        Finset.sum_mul_sq_le_sq_mul_sq Finset.univ _ _
    _ = (∑ i : Fin 12, (x i - mX) * (x i - mX)) *
          ∑ i : Fin 12, (y i - mY) * (y i - mY) := by
        congr 1 <;> exact Finset.sum_congr rfl fun i _ => sq (_)

/-! Lemmas about the best-candidate scan of detectKey. -/

theorem jsGT_nan_left (x : JSF) : jsGT JSF.nan x = false := by
  cases x <;> rfl

theorem ne_nan_of_jsGT {c b : JSF} (h : jsGT c b = true) : c ≠ JSF.nan := by
  intro e
  subst e
  rw [jsGT_nan_left] at h
  exact Bool.false_ne_true h

theorem foldl_selStep_no_beat (l : List (String × JSF)) :
    ∀ st : JSF × String, (∀ c ∈ l, jsGT c.2 st.1 = false) →
      l.foldl selStep st = st := by
  induction l with
  | nil => intro st _; rfl
  | cons c l ih =>
    intro st h
    have hc : jsGT c.2 st.1 = false := h c (List.mem_cons_self c l)
    have hstep : selStep st c = st := by simp [selStep, hc]
    simp only [List.foldl_cons, hstep]
    exact ih st fun c' hc' => h c' (List.mem_cons_of_mem _ hc')

theorem foldl_selStep_cases (l : List (String × JSF)) :
    ∀ st : JSF × String, l.foldl selStep st = st ∨
      ∃ c ∈ l, l.foldl selStep st = (c.2, c.1) ∧ c.2 ≠ JSF.nan := by
  induction l with
  | nil => intro st; left; rfl
  | cons c l ih =>
    intro st
    by_cases h : jsGT c.2 st.1 = true
    · have hstep : selStep st c = (c.2, c.1) := by simp [selStep, h]
      rcases ih (c.2, c.1) with h1 | ⟨c', hc', he, hn⟩
      · exact Or.inr ⟨c, List.mem_cons_self c l,
          by simp only [List.foldl_cons, hstep, h1], ne_nan_of_jsGT h⟩
      · exact Or.inr ⟨c', List.mem_cons_of_mem _ hc',
          by simp only [List.foldl_cons, hstep, he], hn⟩
    · have hstep : selStep st c = st := by simp [selStep, h]
      rcases ih st with h1 | ⟨c', hc', he, hn⟩
      · exact Or.inl (by simp only [List.foldl_cons, hstep, h1])
      · exact Or.inr ⟨c', List.mem_cons_of_mem _ hc',
          by simp only [List.foldl_cons, hstep, he], hn⟩

theorem runSel_first (l : List (String × JSF)) (i : ℕ) (h : i < l.length)
    (h1 : jsGT (l.get ⟨i, h⟩).2 JSF.ninf = true)
    (h2 : ∀ c ∈ l.take i, jsGT (l.get ⟨i, h⟩).2 c.2 = true)
    (h3 : ∀ c ∈ l.drop (i + 1), jsGT c.2 (l.get ⟨i, h⟩).2 = false) :
    (runSel l).2 = (l.get ⟨i, h⟩).1 := by
  set x := l.get ⟨i, h⟩ with hx
  have hdropeq : l.drop i = x :: l.drop (i + 1) := by
    rw [hx, List.get_eq_getElem]
    exact List.drop_eq_getElem_cons h
  have hdecomp : l = l.take i ++ x :: l.drop (i + 1) := by
    conv_lhs => rw [← List.take_append_drop i l, hdropeq]
  unfold runSel
  conv_lhs => rw [hdecomp]
  rw [List.foldl_append, List.foldl_cons]
  rcases foldl_selStep_cases (l.take i) (JSF.ninf, "") with he | ⟨c, hc, he, _⟩
  · rw [he]
    have hsel : selStep (JSF.ninf, "") x = (x.2, x.1) := by simp [selStep, h1]
    rw [hsel, foldl_selStep_no_beat _ _ h3]
  · rw [he]
    have hbeat : jsGT x.2 (c.2, c.1).1 = true := h2 c hc
    have hsel : selStep (c.2, c.1) x = (x.2, x.1) := by simp [selStep, hbeat]
    rw [hsel, foldl_selStep_no_beat _ _ h3]

/-! Lemmas about the rotation helper. -/

theorem rotateFin_zero (p : Fin 12 → ℚ) : rotateFin p 0 = p := by
  funext i
  show p ⟨(i.val + (12 - 0 % 12)) % 12, _⟩ = p i
  congr 1
  apply Fin.ext
  show (i.val + (12 - 0 % 12)) % 12 = i.val
  have hi := i.isLt
  omega

/-- For n ≤ 12, rotate places at index i the source element at the
mathematical index (i - n + 12) mod 12, as the specification states. -/
theorem rotate_spec (arr : List ℚ) (hlen : arr.length = 12) (n : ℕ)
    (hn : n ≤ 12) :
    rotate arr n = (List.range 12).map fun i => arr.get? ((i + 12 - n) % 12) := by
  unfold rotate
  rw [hlen]
  apply List.map_congr_left
  intro i hi
  have hi12 : i < 12 := List.mem_range.mp hi
  have hcast : (i : ℤ) - (n : ℤ) + ((12 : ℕ) : ℤ) = ((i + 12 - n : ℕ) : ℤ) := by
    push_cast
    omega
  rw [hcast, ← Int.ofNat_tmod]
  unfold jsIndex
  rw [if_neg (by exact not_lt.mpr (Int.natCast_nonneg _)), Int.toNat_natCast]

/-- For the rotation amounts detectKey uses (n < 12), rotate agrees with
rotateFin on any 12-element profile, every entry defined. -/
theorem rotate_eq_rotateFin (arr : List ℚ) (hlen : arr.length = 12) (n : ℕ)
    (hn : n < 12) :
    rotate arr n = List.ofFn fun i => some (rotateFin (profFn arr) n i) := by
  rw [rotate_spec arr hlen n hn.le]
  apply List.ext_getElem
  · simp
  · intro j h1 h2
    simp only [List.getElem_map, List.getElem_range, List.getElem_ofFn]
    have hj : j < 12 := by simpa using h1
    have hidx : (j + 12 - n) % 12 < 12 := Nat.mod_lt _ (by norm_num)
    have hidx2 : (j + 12 - n) % 12 < arr.length := by omega
    rw [List.get?_eq_getElem?, List.getElem?_eq_getElem hidx2]
    simp only [rotateFin, profFn]
    have hmod : n % 12 = n := Nat.mod_eq_of_lt hn
    rw [hmod]
    have harg : j + (12 - n) = j + 12 - n := by omega
    rw [harg, List.getD_eq_getElem arr 0 hidx2]

/-- Rotation by 12 returns the profile unchanged (every entry defined). -/
theorem rotate_twelve (arr : List ℚ) (hlen : arr.length = 12) :
    rotate arr 12 = arr.map some := by
  rw [rotate_spec arr hlen 12 le_rfl]
  apply List.ext_getElem
  · simp [hlen]
  · intro j h1 h2
    have hj : j < 12 := by simpa using h1
    simp only [List.getElem_map, List.getElem_range]
    have harg : (j + 12 - 12) % 12 = j := by omega
    rw [harg, List.get?_eq_getElem?, List.getElem?_eq_getElem (by omega)]

/-! Lemmas about the correlation sums. -/

theorem correlate_eq (x y : Fin 12 → ℚ) :
    correlate x y = toJSF (corrXy x y) (corrXx x * corrXx y) := rfl

theorem corrXy_self (x : Fin 12 → ℚ) : corrXy x x = corrXx x := rfl

theorem corrXx_nonneg (x : Fin 12 → ℚ) : 0 ≤ corrXx x :=
  Finset.sum_nonneg fun _ _ => mul_self_nonneg _

theorem corrXx_pos_of_ne {x : Fin 12 → ℚ} {i j : Fin 12} (hne : x i ≠ x j) :
    0 < corrXx x := by
  rcases (corrXx_nonneg x).lt_or_eq with h | h
  · exact h
  · exfalso
    have hall : ∀ k ∈ Finset.univ, (x k - (∑ t : Fin 12, x t) / 12) *
        (x k - (∑ t : Fin 12, x t) / 12) = 0 :=
      (Finset.sum_eq_zero_iff_of_nonneg fun k _ => mul_self_nonneg _).mp h.symm
    have hi := mul_self_eq_zero.mp (hall i (Finset.mem_univ i))
    have hj := mul_self_eq_zero.mp (hall j (Finset.mem_univ j))
    exact hne (by linarith)

theorem corrXy_eq_zero_of_left {x : Fin 12 → ℚ} (h : corrXx x = 0)
    (y : Fin 12 → ℚ) : corrXy x y = 0 := by
  have hall : ∀ k ∈ Finset.univ, (x k - (∑ t : Fin 12, x t) / 12) *
      (x k - (∑ t : Fin 12, x t) / 12) = 0 :=
    (Finset.sum_eq_zero_iff_of_nonneg fun k _ => mul_self_nonneg _).mp h
  unfold corrXy
  apply Finset.sum_eq_zero
  intro k hk
  rw [mul_self_eq_zero.mp (hall k hk), zero_mul]

/-- Correlating a constant chroma vector yields NaN: both sumXy and sumXx
vanish and the source divides 0 by sqrt(0). -/
theorem correlate_of_const {x : Fin 12 → ℚ} (h : ∀ i j : Fin 12, x i = x j)
    (y : Fin 12 → ℚ) : correlate x y = JSF.nan := by
  have hx : corrXx x = 0 := by
    unfold corrXx
    apply Finset.sum_eq_zero
    intro k _
    have hsum : (∑ t : Fin 12, x t) = 12 * x k := by
      rw [Finset.sum_congr rfl fun t _ => h t k]
      simp [Finset.sum_const, Finset.card_univ]
    rw [hsum]
    norm_num
  have hy : corrXy x y = 0 := corrXy_eq_zero_of_left hx y
  rw [correlate_eq, hy, hx, zero_mul]
  unfold toJSF
  norm_num

/-- Rotating a profile does not change its mean-centered self sum. -/
theorem corrXx_rotateFin (p : Fin 12 → ℚ) (n : ℕ) :
    corrXx (rotateFin p n) = corrXx p := by
  have hbij : Function.Bijective
      (fun i : Fin 12 => (⟨(i.val + (12 - n % 12)) % 12,
        Nat.mod_lt _ (by norm_num)⟩ : Fin 12)) := by
    rw [Fintype.bijective_iff_injective_and_card]
    refine ⟨fun a b hab => ?_, rfl⟩
    have hval : (a.val + (12 - n % 12)) % 12 = (b.val + (12 - n % 12)) % 12 :=
      congrArg Fin.val hab
    have ha := a.isLt
    have hb := b.isLt
    apply Fin.ext
    omega
  have hsum : (∑ t : Fin 12, rotateFin p n t) = ∑ t : Fin 12, p t := by
    exact hbij.sum_comp fun t => p t
  unfold corrXx
  rw [hsum]
  exact hbij.sum_comp fun t => (p t - (∑ s : Fin 12, p s) / 12) *
    (p t - (∑ s : Fin 12, p s) / 12)

/-- When both self sums are positive the correlation is a finite value. -/
theorem correlate_fin_of_pos {x y : Fin 12 → ℚ} (hx : 0 < corrXx x)
    (hy : 0 < corrXx y) :
    correlate x y = JSF.fin (corrXy x y) (corrXx x * corrXx y) := by
  rw [correlate_eq]
  unfold toJSF
  rw [if_pos (mul_pos hx hy)]

/-- The self-correlation of a non-degenerate vector has real value 1. -/
theorem jsVal_correlate_self {x : Fin 12 → ℚ} (hx : 0 < corrXx x) :
    jsVal (correlate x x) = 1 := by
  rw [correlate_fin_of_pos hx hx, corrXy_self]
  show (corrXx x : ℝ) / Real.sqrt ((corrXx x * corrXx x : ℚ) : ℝ) = 1
  have hxR : (0 : ℝ) < (corrXx x : ℝ) := by exact_mod_cast hx
  rw [Rat.cast_mul, Real.sqrt_mul_self hxR.le]
  exact div_self hxR.ne'

/-- A candidate whose correlation value does not exceed that of the running
best never replaces it. -/
theorem jsGT_fin_eq_false_of_le (a b c d : ℚ) (hb : 0 < b) (hd : 0 < d)
    (h : (a : ℝ) / Real.sqrt (b : ℝ) ≤ (c : ℝ) / Real.sqrt (d : ℝ)) :
    jsGT (JSF.fin a b) (JSF.fin c d) = false := by
  show sgt a b c d = false
  rw [Bool.eq_false_iff]
  intro ht
  exact absurd ((sgt_eq_true_iff a b c d hb hd).mp ht) (not_lt.mpr h)

/-! Lemmas about the detectKey frame loop. -/

theorem keyLoop_stop (cf : List ℚ → Option (Fin 12 → ℚ)) (data : List ℚ)
    (endS : ℚ) (fuel i : ℕ) (acc : Fin 12 → ℚ) (f : ℕ)
    (h : ¬ (i : ℚ) < endS - 4096) :
    keyLoop cf data endS fuel i acc f = (acc, f) := by
  cases fuel <;> simp [keyLoop, h]

theorem frameOffsets_stop (endS : ℚ) (fuel i : ℕ)
    (h : ¬ (i : ℚ) < endS - 4096) : frameOffsets endS fuel i = [] := by
  cases fuel <;> simp [frameOffsets, h]

theorem keyLoop_eq_foldl (cf : List ℚ → Option (Fin 12 → ℚ)) (data : List ℚ)
    (endS : ℚ) (hendS : endS ≤ (data.length : ℚ)) :
    ∀ (fuel i : ℕ) (acc : Fin 12 → ℚ) (f : ℕ),
      keyLoop cf data endS fuel i acc f =
        (frameOffsets endS fuel i).foldl (keyStep cf data) (acc, f) := by
  intro fuel
  induction fuel with
  | zero => intro i acc f; rfl
  | succ fuel ih =>
    intro i acc f
    by_cases h : (i : ℚ) < endS - 4096
    · have hlen : i + 4096 ≤ data.length := by
        have h1 : (i : ℚ) + 4096 < (data.length : ℚ) := by linarith
        exact_mod_cast h1.le
      have hchunk : ¬ ((data.drop i).take 4096).length < 4096 := by
        rw [List.length_take, List.length_drop]
        omega
      rw [keyLoop, frameOffsets, if_pos h, if_pos h, List.foldl_cons]
      cases hc : cf ((data.drop i).take 4096) with
      | some c =>
        have hstep : keyStep cf data (acc, f) i = (fun k => acc k + c k, f + 1) := by
          simp [keyStep, hc]
        simp only [if_neg hchunk, hc, hstep]
        exact ih (i + 8192) _ _
      | none =>
        have hstep : keyStep cf data (acc, f) i = (acc, f) := by
          simp [keyStep, hc]
        simp only [if_neg hchunk, hc, hstep]
        exact ih (i + 8192) _ _
    · rw [keyLoop_stop cf data endS _ i acc f h, frameOffsets_stop endS _ i h]
      rfl

theorem frameOffsets_subset (endS : ℚ) :
    ∀ (fuel i n : ℕ), n ∈ frameOffsets endS fuel i →
      (∃ k, n = i + 8192 * k) ∧ (n : ℚ) < endS - 4096 := by
  intro fuel
  induction fuel with
  | zero => intro i n h; simp [frameOffsets] at h
  | succ fuel ih =>
    intro i n h
    rw [frameOffsets] at h
    by_cases hg : (i : ℚ) < endS - 4096
    · rw [if_pos hg] at h
      rcases List.mem_cons.mp h with he | ht
      · subst he
        exact ⟨⟨0, by ring⟩, hg⟩
      · obtain ⟨⟨k, hk⟩, hb⟩ := ih (i + 8192) n ht
        exact ⟨⟨k + 1, by omega⟩, hb⟩
    · rw [if_neg hg] at h
      simp at h

theorem frameOffsets_mem (endS : ℚ) :
    ∀ (k fuel i : ℕ), k < fuel → ((i + 8192 * k : ℕ) : ℚ) < endS - 4096 →
      i + 8192 * k ∈ frameOffsets endS fuel i := by
  intro k
  induction k with
  | zero =>
    intro fuel i hf hb
    obtain ⟨fuel', rfl⟩ : ∃ g, fuel = g + 1 := ⟨fuel - 1, by omega⟩
    rw [frameOffsets]
    simp only [Nat.mul_zero, Nat.add_zero] at hb ⊢
    rw [if_pos hb]
    exact List.mem_cons_self _ _
  | succ k ih =>
    intro fuel i hf hb
    obtain ⟨fuel', rfl⟩ : ∃ g, fuel = g + 1 := ⟨fuel - 1, by omega⟩
    have hmono : (i : ℚ) ≤ ((i + 8192 * (k + 1) : ℕ) : ℚ) := by
      push_cast
      linarith [Nat.cast_nonneg (α := ℚ) k]
    have hgi : (i : ℚ) < endS - 4096 := lt_of_le_of_lt hmono hb
    rw [frameOffsets, if_pos hgi]
    apply List.mem_cons_of_mem
    have harr : i + 8192 * (k + 1) = (i + 8192) + 8192 * k := by ring
    rw [harr] at hb ⊢
    exact ih fuel' (i + 8192) (by omega) hb

theorem endSampleQ_le (buf : AudioBuffer) :
    endSampleQ buf ≤ (buf.channel0.length : ℚ) := min_le_right _ _

theorem keyAccum_eq_foldl (cf : List ℚ → Option (Fin 12 → ℚ))
    (buf : AudioBuffer) :
    keyAccum cf buf =
      (analyzedOffsets buf).foldl (keyStep cf buf.channel0) (fun _ => 0, 0) :=
  keyLoop_eq_foldl cf buf.channel0 (endSampleQ buf) (endSampleQ_le buf) _ _ _ _

theorem analyzedOffsets_iff (buf : AudioBuffer) (n : ℕ) :
    n ∈ analyzedOffsets buf ↔
      (∃ k, n = (safeStart buf).toNat + 8192 * k) ∧
        (n : ℚ) < endSampleQ buf - 4096 := by
  constructor
  · exact fun h => frameOffsets_subset _ _ _ _ h
  · rintro ⟨⟨k, rfl⟩, hb⟩
    refine frameOffsets_mem _ _ _ _ ?_ hb
    have h1 : (((safeStart buf).toNat + 8192 * k : ℕ) : ℚ) <
        (buf.channel0.length : ℚ) := by
      have := endSampleQ_le buf
      linarith
    have h2 : (safeStart buf).toNat + 8192 * k < buf.channel0.length := by
      exact_mod_cast h1
    omega

/-! Lemmas about the detectTuningReference accumulation. -/

theorem deviation_abs_le (sr : ℚ) (bin : ℤ) : |deviation sr bin| ≤ 50 := by
  unfold deviation
  rw [abs_mul]
  have h := abs_sub_round (69 + 12 *
    Real.logb 2 ((((bin : ℚ) * (sr / 4096) : ℚ) : ℝ) / 440))
  calc |69 + 12 * Real.logb 2 ((((bin : ℚ) * (sr / 4096) : ℚ) : ℝ) / 440) -
        ((round (69 + 12 * Real.logb 2
          ((((bin : ℚ) * (sr / 4096) : ℚ) : ℝ) / 440)) : ℤ) : ℝ)| * |(100 : ℝ)|
      ≤ (1 / 2) * 100 := by
        have : |(100 : ℝ)| = 100 := by norm_num
        rw [this]
        exact mul_le_mul_of_nonneg_right h (by norm_num)
    _ = 50 := by norm_num

theorem tuningAccum_eq (sr : ℚ) (l : List (ℚ × ℤ)) :
    tuningAccum sr l =
      (((l.filter fun p => (1 : ℚ) / 10 < p.1).map
          fun p => deviation sr p.2).sum,
        (l.filter fun p => (1 : ℚ) / 10 < p.1).length) := by
  have key : ∀ (m : List (ℚ × ℤ)) (t : ℝ) (n : ℕ),
      m.foldl (fun st p => if (1 : ℚ) / 10 < p.1
          then (st.1 + deviation sr p.2, st.2 + 1) else st) (t, n) =
        (t + ((m.filter fun p => (1 : ℚ) / 10 < p.1).map
            fun p => deviation sr p.2).sum,
          n + (m.filter fun p => (1 : ℚ) / 10 < p.1).length) := by
    intro m
    induction m with
    | nil => intro t n; simp
    | cons p m ih =>
      intro t n
      by_cases hp : (1 : ℚ) / 10 < p.1
      · rw [List.foldl_cons, if_pos hp, ih]
        have hfil : (p :: m).filter (fun q => (1 : ℚ) / 10 < q.1) =
            p :: m.filter fun q => (1 : ℚ) / 10 < q.1 := by
          rw [List.filter_cons, if_pos (decide_eq_true hp)]
        rw [hfil]
        simp only [List.map_cons, List.sum_cons, List.length_cons,
          Prod.mk.injEq]
        constructor
        · ring
        · omega
      · rw [List.foldl_cons, if_neg hp, ih]
        have hfil : (p :: m).filter (fun q => (1 : ℚ) / 10 < q.1) =
            m.filter fun q => (1 : ℚ) / 10 < q.1 := by
          rw [List.filter_cons, if_neg (by simpa using hp)]
        rw [hfil]
  unfold tuningAccum
  rw [key]
  simp

theorem tuningAccum_abs_le (sr : ℚ) (l : List (ℚ × ℤ)) :
    |(tuningAccum sr l).1| ≤ 50 * ((tuningAccum sr l).2 : ℝ) := by
  rw [tuningAccum_eq]
  generalize l.filter fun p => (1 : ℚ) / 10 < p.1 = m
  induction m with
  | nil => simp
  | cons p m ih =>
    simp only [List.map_cons, List.sum_cons, List.length_cons]
    calc |deviation sr p.2 + (m.map fun p => deviation sr p.2).sum|
        ≤ |deviation sr p.2| + |(m.map fun p => deviation sr p.2).sum| :=
          abs_add _ _
      _ ≤ 50 * ((m.length + 1 : ℕ) : ℝ) := by
          push_cast
          have h1 := deviation_abs_le sr p.2
          have h2 : |(List.map (fun p => deviation sr p.2) m).sum| ≤
              50 * (m.length : ℝ) := by simpa using ih
          linarith

/-! Lemmas about the candidate list of detectKey. -/

theorem jsVal_fin (a b : ℚ) :
    jsVal (JSF.fin a b) = (a : ℝ) / Real.sqrt (b : ℝ) := rfl

theorem selCandidates_length (s : KeyDetectorService) (chroma : Fin 12 → ℚ) :
    (selCandidates s chroma).length = 24 := by
  simp [selCandidates, candProfs]

theorem mem_candProfs {p : (Fin 12 → ℚ) × String}
    (hp : p ∈ candProfs theService) :
    (∃ n, n < 12 ∧ p = (rotateFin (profFn MAJOR_PROFILE) n,
        KEYS.getD n "" ++ " Major")) ∨
    (∃ n, n < 12 ∧ p = (rotateFin (profFn MINOR_PROFILE) n,
        KEYS.getD n "" ++ " Minor")) := by
  unfold candProfs theService at hp
  rcases List.mem_append.mp hp with h | h
  · obtain ⟨n, hn, he⟩ := List.mem_map.mp h
    exact Or.inl ⟨n, List.mem_range.mp hn, he.symm⟩
  · obtain ⟨n, hn, he⟩ := List.mem_map.mp h
    exact Or.inr ⟨n, List.mem_range.mp hn, he.symm⟩

theorem majorProfile_nonconst : profFn MAJOR_PROFILE 0 ≠ profFn MAJOR_PROFILE 1 := by
  norm_num [profFn, MAJOR_PROFILE, List.getD_cons_zero, List.getD_cons_succ]

theorem minorProfile_nonconst : profFn MINOR_PROFILE 0 ≠ profFn MINOR_PROFILE 1 := by
  norm_num [profFn, MINOR_PROFILE, List.getD_cons_zero, List.getD_cons_succ]

theorem corrXx_majorProfile_pos : 0 < corrXx (profFn MAJOR_PROFILE) :=
  corrXx_pos_of_ne majorProfile_nonconst

theorem corrXx_minorProfile_pos : 0 < corrXx (profFn MINOR_PROFILE) :=
  corrXx_pos_of_ne minorProfile_nonconst

theorem corrXx_candProf_pos : ∀ p ∈ candProfs theService, 0 < corrXx p.1 := by
  intro p hp
  rcases mem_candProfs hp with ⟨n, _, he⟩ | ⟨n, _, he⟩ <;> subst he
  · simpa [corrXx_rotateFin] using corrXx_majorProfile_pos
  · simpa [corrXx_rotateFin] using corrXx_minorProfile_pos

theorem selCandidates_head (chroma : Fin 12 → ℚ)
    (h : 0 < (selCandidates theService chroma).length) :
    (selCandidates theService chroma).get ⟨0, h⟩ =
      ("C Major", correlate chroma (profFn MAJOR_PROFILE)) := by
  rw [List.get_eq_getElem]
  simp only [selCandidates, List.getElem_map, candProfs, theService]
  rw [List.getElem_append_left (by simp)]
  simp only [List.getElem_map, List.getElem_range, rotateFin_zero]
  rw [show KEYS.getD 0 "" = "C" from rfl]
  rfl

theorem majSelf_beats_ninf :
    jsGT (correlate (profFn MAJOR_PROFILE) (profFn MAJOR_PROFILE)) JSF.ninf
      = true := by
  rw [correlate_fin_of_pos corrXx_majorProfile_pos corrXx_majorProfile_pos]
  rfl

theorem majSelf_no_beat :
    ∀ c ∈ (selCandidates theService (profFn MAJOR_PROFILE)).drop 1,
      jsGT c.2 (correlate (profFn MAJOR_PROFILE) (profFn MAJOR_PROFILE))
        = false := by
  intro c hc
  have hcmem : c ∈ selCandidates theService (profFn MAJOR_PROFILE) :=
    List.mem_of_mem_drop hc
  obtain ⟨p, hp, he⟩ := List.mem_map.mp hcmem
  have hyp : 0 < corrXx p.1 := corrXx_candProf_pos p hp
  have hscore : correlate (profFn MAJOR_PROFILE) p.1 =
      JSF.fin (corrXy (profFn MAJOR_PROFILE) p.1)
        (corrXx (profFn MAJOR_PROFILE) * corrXx p.1) :=
    correlate_fin_of_pos corrXx_majorProfile_pos hyp
  have hbest : correlate (profFn MAJOR_PROFILE) (profFn MAJOR_PROFILE) =
      JSF.fin (corrXx (profFn MAJOR_PROFILE))
        (corrXx (profFn MAJOR_PROFILE) * corrXx (profFn MAJOR_PROFILE)) := by
    rw [correlate_fin_of_pos corrXx_majorProfile_pos corrXx_majorProfile_pos,
      corrXy_self]
  have hle : jsVal (correlate (profFn MAJOR_PROFILE) p.1) ≤ 1 :=
    jsVal_correlate_le_one _ _
  have hone : jsVal (correlate (profFn MAJOR_PROFILE) (profFn MAJOR_PROFILE))
      = 1 := jsVal_correlate_self corrXx_majorProfile_pos
  rw [← he, hscore, hbest]
  apply jsGT_fin_eq_false_of_le _ _ _ _
    (mul_pos corrXx_majorProfile_pos hyp)
    (mul_pos corrXx_majorProfile_pos corrXx_majorProfile_pos)
  rw [hscore, jsVal_fin] at hle
  rw [hbest, jsVal_fin] at hone
  rw [hone]
  exact hle

/-! Numeric bounds for the tuning estimate. -/

theorem two_rpow_pow24 : ((2 : ℝ) ^ ((1 : ℝ) / 24)) ^ (24 : ℕ) = 2 := by
  rw [← Real.rpow_natCast ((2 : ℝ) ^ ((1 : ℝ) / 24)) 24,
    ← Real.rpow_mul (by norm_num : (0 : ℝ) ≤ 2)]
  norm_num

theorem two_rpow_upper : (2 : ℝ) ^ ((1 : ℝ) / 24) < 907 / 880 := by
  apply lt_of_pow_lt_pow_left₀ 24 (by norm_num : (0 : ℝ) ≤ 907 / 880)
  rw [two_rpow_pow24]
  norm_num

theorem two_rpow_lower : (2 : ℝ) ^ ((1 : ℝ) / 24) ≤ 880 / 853 := by
  apply le_of_pow_le_pow_left₀ (by norm_num : (24 : ℕ) ≠ 0)
    (by norm_num : (0 : ℝ) ≤ 880 / 853)
  rw [two_rpow_pow24]
  norm_num

theorem tuning_value_bounds (e : ℝ) (he1 : -(1 / 24 : ℝ) ≤ e)
    (he2 : e ≤ 1 / 24) :
    (853 / 2 : ℝ) ≤ 440 * (2 : ℝ) ^ e ∧ 440 * (2 : ℝ) ^ e < 907 / 2 := by
  have h2 : (1 : ℝ) < 2 := one_lt_two
  have hup : (2 : ℝ) ^ e ≤ (2 : ℝ) ^ ((1 : ℝ) / 24) :=
    (Real.rpow_le_rpow_left_iff h2).mpr he2
  have hlo : (2 : ℝ) ^ (-((1 : ℝ) / 24)) ≤ (2 : ℝ) ^ e :=
    (Real.rpow_le_rpow_left_iff h2).mpr he1
  have hneg : (2 : ℝ) ^ (-((1 : ℝ) / 24)) = ((2 : ℝ) ^ ((1 : ℝ) / 24))⁻¹ :=
    Real.rpow_neg (by norm_num) _
  have hposr : (0 : ℝ) < (2 : ℝ) ^ ((1 : ℝ) / 24) :=
    Real.rpow_pos_of_pos (by norm_num) _
  constructor
  · have hinv : (853 / 880 : ℝ) ≤ ((2 : ℝ) ^ ((1 : ℝ) / 24))⁻¹ := by
      rw [show (853 / 880 : ℝ) = (880 / 853 : ℝ)⁻¹ by norm_num]
      exact inv_anti₀ hposr two_rpow_lower
    have : (853 / 880 : ℝ) ≤ (2 : ℝ) ^ e := by
      calc (853 / 880 : ℝ) ≤ ((2 : ℝ) ^ ((1 : ℝ) / 24))⁻¹ := hinv
        _ = (2 : ℝ) ^ (-((1 : ℝ) / 24)) := hneg.symm
        _ ≤ (2 : ℝ) ^ e := hlo
    nlinarith
  · have : (2 : ℝ) ^ e < 907 / 880 := lt_of_le_of_lt hup two_rpow_upper
    nlinarith

theorem round_range {x : ℝ} (h1 : (853 / 2 : ℝ) ≤ x) (h2 : x < 907 / 2) :
    427 ≤ round x ∧ round x ≤ 453 := by
  rw [round_eq]
  constructor
  · apply Int.le_floor.mpr
    push_cast
    linarith
  · have hlt : ⌊x + 1 / 2⌋ < 454 := Int.floor_lt.mpr (by push_cast; linarith)
    omega

/-- C10: for every input buffer and spectrum extractor, the tuning estimate
lies between 427 and 453 inclusive: every cents deviation lies in [-50, 50],
hence so does their average, and 440 * 2 ^ (avg / 1200) then lies strictly
between 426.5 and 453.5, while the zero-valid-chunk default 440 also lies in
the range. -/
theorem c10_tuning_range (sf : List ℚ → Option (List ℚ)) (buf : AudioBuffer) :
    427 ≤ detectTuningReference sf buf ∧ detectTuningReference sf buf ≤ 453 := by
  simp only [detectTuningReference, KeyDetectorService.detectTuningReference]
  by_cases h : (tuningAccum buf.sampleRate (chunkPeaks sf buf)).2 = 0
  · rw [if_pos h]
    norm_num
  · rw [if_neg h]
    set t := (tuningAccum buf.sampleRate (chunkPeaks sf buf)).1 with ht
    set n := (tuningAccum buf.sampleRate (chunkPeaks sf buf)).2 with hn
    have habs : |t| ≤ 50 * (n : ℝ) := tuningAccum_abs_le _ _
    have hn1 : 1 ≤ n := Nat.one_le_iff_ne_zero.mpr h
    have hnR : (0 : ℝ) < (n : ℝ) := by exact_mod_cast hn1
    have havg : |t / (n : ℝ)| ≤ 50 := by
      rw [abs_div, abs_of_pos hnR, div_le_iff₀ hnR]
      linarith
    have h50 := abs_le.mp havg
    have he1 : -(1 / 24 : ℝ) ≤ t / (n : ℝ) / 1200 := by linarith [h50.1]
    have he2 : t / (n : ℝ) / 1200 ≤ 1 / 24 := by linarith [h50.2]
    obtain ⟨b1, b2⟩ := tuning_value_bounds (t / (n : ℝ) / 1200) he1 he2
    exact round_range b1 b2

theorem tuningChunkStarts_nil {len : ℕ} (h : len < 4096) :
    tuningChunkStarts len = [] := by
  unfold tuningChunkStarts
  have h50 : List.range 50 = 0 :: (List.range 49).map (· + 1) := by
    rw [show (50 : ℕ) = 49 + 1 from rfl, List.range_succ_eq_map]
  have hc : ¬ (0 * (len / 50) + 4096 ≤ len) := by omega
  rw [h50, List.takeWhile_cons, if_neg (by simpa using hc)]

/-- C4: whenever at least one chunk is valid, the tuning estimate is exactly
round(440 * 2 ^ (avg / 1200)) where avg is the arithmetic mean, over exactly
the valid chunks, of the cents deviations (midi - round(midi)) * 100 with
midi = 69 + 12 * log2(peakFreq / 440). -/
theorem c4_tuning_formula (sf : List ℚ → Option (List ℚ)) (buf : AudioBuffer)
    (h : validCount sf buf ≠ 0) :
    detectTuningReference sf buf =
      round ((440 : ℝ) * (2 : ℝ) ^
        ((((validBins sf buf).map (deviation buf.sampleRate)).sum /
          (validCount sf buf : ℝ)) / 1200)) := by
  simp only [detectTuningReference, KeyDetectorService.detectTuningReference]
  have heq := tuningAccum_eq buf.sampleRate (chunkPeaks sf buf)
  have h2 : (tuningAccum buf.sampleRate (chunkPeaks sf buf)).2 =
      validCount sf buf := by
    rw [heq]
    rfl
  have h1 : (tuningAccum buf.sampleRate (chunkPeaks sf buf)).1 =
      ((validBins sf buf).map (deviation buf.sampleRate)).sum := by
    rw [heq]
    show (((chunkPeaks sf buf).filter fun p => (1 : ℚ) / 10 < p.1).map
      fun p => deviation buf.sampleRate p.2).sum = _
    unfold validBins validPeaks
    rw [List.map_map]
    rfl
  rw [h1, h2, if_neg h]

/-- C3: a buffer shorter than one analysis window makes detectTuningReference
return 440 and detectKey return "Unknown"; and on a silent buffer, where
every extracted chunk peak is at or below the 0.1 threshold, the tuning
estimate is again exactly 440.  Neither embedded function can throw: both
are total. -/
theorem c3_short_and_silent (sf : List ℚ → Option (List ℚ))
    (cf : List ℚ → Option (Fin 12 → ℚ)) (buf : AudioBuffer) :
    (buf.channel0.length < 4096 →
      detectTuningReference sf buf = 440 ∧ detectKey cf buf = "Unknown") ∧
    ((∀ x ∈ buf.channel0, x = 0) →
      (∀ p ∈ chunkPeaks sf buf, p.1 ≤ 1 / 10) →
      detectTuningReference sf buf = 440) := by
  constructor
  · intro hlen
    constructor
    · have hstarts : tuningChunkStarts buf.channel0.length = [] :=
        tuningChunkStarts_nil hlen
      simp only [detectTuningReference,
        KeyDetectorService.detectTuningReference, chunkPeaks, hstarts,
        List.filterMap_nil]
      norm_num [tuningAccum]
    · have hend : endSampleQ buf - 4096 < 0 := by
        have h1 := endSampleQ_le buf
        have h2 : (buf.channel0.length : ℚ) < 4096 := by exact_mod_cast hlen
        linarith
      have hguard : ¬ (((safeStart buf).toNat : ℚ) <
          endSampleQ buf - 4096) := by
        intro hcon
        have h0 : (0 : ℚ) ≤ ((safeStart buf).toNat : ℚ) := Nat.cast_nonneg _
        linarith
      simp only [detectKey, KeyDetectorService.detectKey, keyAccum]
      rw [keyLoop_stop _ _ _ _ _ _ _ hguard]
      rfl
  · intro _ hpeaks
    have hfil : (chunkPeaks sf buf).filter (fun p => (1 : ℚ) / 10 < p.1)
        = [] := by
      rw [List.filter_eq_nil_iff]
      intro p hp
      simpa using not_lt.mpr (hpeaks p hp)
    have hcount : (tuningAccum buf.sampleRate (chunkPeaks sf buf)).2 = 0 := by
      rw [tuningAccum_eq, hfil]
      rfl
    simp only [detectTuningReference, KeyDetectorService.detectTuningReference]
    rw [if_pos hcount]

/-- Witness for C3: the empty buffer with failing extractors hits both
documented defaults. -/
theorem c3_short_and_silent_witness :
    (detectTuningReference noneSf bufEmpty = 440 ∧
      detectKey noneCf bufEmpty = "Unknown") ∧
    detectTuningReference noneSf bufEmpty = 440 := by
  refine ⟨(c3_short_and_silent noneSf noneCf bufEmpty).1 (by decide),
    (c3_short_and_silent noneSf noneCf bufEmpty).2 ?_ ?_⟩
  · intro x hx
    simp [bufEmpty] at hx
  · intro p hp
    have h0 : tuningChunkStarts bufEmpty.channel0.length = [] :=
      tuningChunkStarts_nil (by decide)
    simp only [chunkPeaks, h0, List.filterMap_nil] at hp
    exact absurd hp (List.not_mem_nil p)

theorem validCount_constSf_buf4096 : validCount constSf buf4096 = 1 := by
  have hlen : buf4096.channel0.length = 4096 := by
    simp only [buf4096, List.length_replicate]
  have hstarts : tuningChunkStarts 4096 = [0] := by decide
  have hpeaks : chunkPeaks constSf buf4096 = [peakSearch spec22] := by
    simp only [chunkPeaks, hlen, hstarts, constSf, List.filterMap_cons,
      List.filterMap_nil, Option.map_some]
    rfl
  have hps : peakSearch spec22 = (1, 10) := by decide
  simp only [validCount, validPeaks, hpeaks, hps]
  rw [List.filter_cons, if_pos (decide_eq_true (by norm_num))]
  rfl

/-- Witness for C4: a one-window silent buffer with a constant synthetic
spectrum has exactly one valid chunk, and the theorem applies. -/
theorem c4_tuning_formula_witness :
    detectTuningReference constSf buf4096 =
      round ((440 : ℝ) * (2 : ℝ) ^
        ((((validBins constSf buf4096).map (deviation buf4096.sampleRate)).sum /
          (validCount constSf buf4096 : ℝ)) / 1200)) :=
  c4_tuning_formula constSf buf4096 (by rw [validCount_constSf_buf4096]; omega)

/-- C9: both estimators are pure methods of the service: threading the
receiver state through a call leaves it unchanged, and an immediately
repeated call on the post-state returns the identical result. -/
theorem c9_idempotent (s : KeyDetectorService)
    (cf : List ℚ → Option (Fin 12 → ℚ)) (sf : List ℚ → Option (List ℚ))
    (buf : AudioBuffer) :
    (s.detectKeyCall cf buf).2 = s ∧
    (s.detectTuningCall sf buf).2 = s ∧
    ((s.detectKeyCall cf buf).2.detectKeyCall cf buf).1 =
      (s.detectKeyCall cf buf).1 ∧
    ((s.detectTuningCall sf buf).2.detectTuningCall sf buf).1 =
      (s.detectTuningCall sf buf).1 :=
  ⟨rfl, rfl, rfl, rfl⟩

/-- C2 (code bug): on a 40-bin spectrum frame the peak search scans only
bins 10 ≤ k < length / 2 = 20 and returns the bin-15 peak of magnitude 1,
even though bin 30 — within the frame, below the last index — holds the
strictly larger magnitude 5.  The loop comment in the source claims the
bound is the Nyquist bin, i.e. the last index of the frame. -/
theorem c2_peak_search_bug :
    peakSearch spec40 = (1, 15) ∧ spec40.getD 30 0 = 5 ∧
    spec40.length = 40 ∧ (1 : ℚ) < 5 :=
  ⟨by decide, by decide, by decide, by norm_num⟩

/-- C8 counterexample: at rotation amount 13 the truncated JavaScript
remainder (0 - 13 + 12) % 12 = -1 indexes outside the array and the entry is
undefined, whereas the mathematical source index (0 - 13 + 12) mod 12 = 11
holds a defined profile weight. -/
theorem c8_rotate_cex :
    (rotate MAJOR_PROFILE 13).getD 0 (some 0) = none ∧
    MAJOR_PROFILE.get? (((0 : ℤ) - 13 + 12).emod 12).toNat ≠ none := by
  constructor
  · decide
  · decide

/-- C8 amended: for every 12-element profile and every rotation amount
n ≤ 12 — which covers all amounts the program uses — rotate places at index
i the source element at index (i - n + 12) mod 12, and rotation by 12
returns the profile unchanged.  For n ≥ 13 the source index is negative and
the entry is undefined (see the counterexample). -/
theorem c8_rotate_amended (arr : List ℚ) (hlen : arr.length = 12) (n : ℕ)
    (hn : n ≤ 12) :
    rotate arr n =
      ((List.range 12).map fun i => arr.get? ((i + 12 - n) % 12)) ∧
    rotate arr 12 = arr.map some :=
  ⟨rotate_spec arr hlen n hn, rotate_twelve arr hlen⟩

/-- Witness for C8: the major profile at rotation amounts 5 and 12. -/
theorem c8_rotate_amended_witness :
    (rotate MAJOR_PROFILE 5 =
      ((List.range 12).map fun i => MAJOR_PROFILE.get? ((i + 12 - 5) % 12))) ∧
    rotate MAJOR_PROFILE 12 = MAJOR_PROFILE.map some :=
  ⟨(c8_rotate_amended MAJOR_PROFILE (by decide) 5 (by norm_num)).1,
    (c8_rotate_amended MAJOR_PROFILE (by decide) 12 (by norm_num)).2⟩

/-- C6 amended: detectKey analyzes exactly the hop-spaced frame offsets
safeStart, safeStart + 8192, ... that lie strictly below
endSample - 4096, and accumulates the extracted chroma and frame count of
each analyzed frame; a frame ending precisely at the last sample of the
window (offset = endSample - 4096) fails the strict guard and is excluded. -/
theorem c6_frame_iteration (cf : List ℚ → Option (Fin 12 → ℚ))
    (buf : AudioBuffer) (n : ℕ) :
    (n ∈ analyzedOffsets buf ↔
      (∃ k, n = (safeStart buf).toNat + 8192 * k) ∧
        (n : ℚ) < endSampleQ buf - 4096) ∧
    keyAccum cf buf =
      (analyzedOffsets buf).foldl (keyStep cf buf.channel0) (fun _ => 0, 0) :=
  ⟨analyzedOffsets_iff buf n, keyAccum_eq_foldl cf buf⟩

theorem buf4096_len : buf4096.channel0.length = 4096 := by
  simp only [buf4096, List.length_replicate]

theorem safeStart_buf4096 : safeStart buf4096 = 0 := by
  have hdur : durationQ buf4096 = 4096 / 1000 := by
    simp only [durationQ, buf4096_len, buf4096]
    norm_num
  have hdta : durationToAnalyze buf4096 = 4096 / 1000 := by
    simp only [durationToAnalyze, hdur]
    norm_num
  simp only [safeStart, startSample, hdur, hdta]
  norm_num

theorem endSampleQ_buf4096 : endSampleQ buf4096 = 4096 := by
  have hdta : durationToAnalyze buf4096 = 4096 / 1000 := by
    simp only [durationToAnalyze, durationQ, buf4096_len, buf4096]
    norm_num
  have hsr : buf4096.sampleRate = 1000 := rfl
  unfold endSampleQ
  rw [safeStart_buf4096, hdta, hsr, buf4096_len]
  norm_num

/-- C6 counterexample: on a buffer of exactly one analysis window the frame
[0, 4096) ends precisely at the last sample of the selected window
(safeStart = 0, endSample = 4096), yet the loop analyzes zero frames — the
accumulator and frame count stay zero and detectKey returns "Unknown" even
though chroma extraction succeeds on every chunk. -/
theorem c6_exact_fit_frame_cex :
    safeStart buf4096 = 0 ∧ endSampleQ buf4096 = 4096 ∧
    buf4096.channel0.length = 4096 ∧
    keyAccum majCf buf4096 = (fun _ => 0, 0) ∧
    detectKey majCf buf4096 = "Unknown" := by
  have hguard : ¬ (((safeStart buf4096).toNat : ℚ) <
      endSampleQ buf4096 - 4096) := by
    rw [safeStart_buf4096, endSampleQ_buf4096]
    norm_num
  have hacc : keyAccum majCf buf4096 = (fun _ => 0, 0) := by
    simp only [keyAccum]
    rw [keyLoop_stop _ _ _ _ _ _ _ hguard]
  refine ⟨safeStart_buf4096, endSampleQ_buf4096, buf4096_len, hacc, ?_⟩
  simp only [detectKey, KeyDetectorService.detectKey, hacc]
  exact if_pos trivial

/-! The selection phase: shape of the result and degenerate chroma. -/

theorem runSel_all_nan (l : List (String × JSF))
    (h : ∀ c ∈ l, c.2 = JSF.nan) : (runSel l).2 = "" := by
  unfold runSel
  rw [foldl_selStep_no_beat l _ fun c hc => by
    rw [h c hc]; exact jsGT_nan_left _]

theorem detectKeySelOn_const (chroma : Fin 12 → ℚ)
    (h : ∀ i j : Fin 12, chroma i = chroma j) :
    detectKeySelOn theService chroma = "" := by
  unfold detectKeySelOn
  apply runSel_all_nan
  intro c hc
  obtain ⟨p, _, he⟩ := List.mem_map.mp hc
  rw [← he]
  exact correlate_of_const h p.1

theorem selCandidates_map_fst (s : KeyDetectorService) (chroma : Fin 12 → ℚ) :
    (selCandidates s chroma).map Prod.fst = (candProfs s).map Prod.snd := by
  unfold selCandidates
  rw [List.map_map]
  exact List.map_congr_left fun p _ => rfl

theorem keyNameList_nodup : keyNameList.Nodup := by decide

theorem empty_not_mem_keyNames : "" ∉ keyNameList := by decide

theorem detectKeySelOn_majorSelf :
    detectKeySelOn theService (profFn MAJOR_PROFILE) = "C Major" := by
  have hlen0 : 0 < (selCandidates theService (profFn MAJOR_PROFILE)).length := by
    rw [selCandidates_length]
    norm_num
  have hhead := selCandidates_head (profFn MAJOR_PROFILE) hlen0
  have h1 : jsGT ((selCandidates theService (profFn MAJOR_PROFILE)).get
      ⟨0, hlen0⟩).2 JSF.ninf = true := by
    rw [hhead]
    exact majSelf_beats_ninf
  have h2 : ∀ c ∈ (selCandidates theService (profFn MAJOR_PROFILE)).take 0,
      jsGT ((selCandidates theService (profFn MAJOR_PROFILE)).get
        ⟨0, hlen0⟩).2 c.2 = true := by
    intro c hc
    simp at hc
  have h3 : ∀ c ∈ (selCandidates theService (profFn MAJOR_PROFILE)).drop 1,
      jsGT c.2 ((selCandidates theService (profFn MAJOR_PROFILE)).get
        ⟨0, hlen0⟩).2 = false := by
    intro c hc
    rw [hhead]
    exact majSelf_no_beat c hc
  have hfirst := runSel_first _ 0 hlen0 h1 h2 h3
  unfold detectKeySelOn
  rw [hfirst, hhead]

/-- C5: for a chroma vector equal to the unrotated major profile, the
correlation scoring of detectKey selects rotation 0 / Major ("C Major"), the
rotation-0 major candidate scores exactly 1, and 1 is the maximum over all
24 candidates (the 12 major rotations sit before the 12 minor rotations in
the candidate list). -/
theorem c5_major_self :
    detectKeySelOn theService (profFn MAJOR_PROFILE) = "C Major" ∧
    jsVal (correlate (profFn MAJOR_PROFILE)
      (rotateFin (profFn MAJOR_PROFILE) 0)) = 1 ∧
    ∀ c ∈ selCandidates theService (profFn MAJOR_PROFILE), jsVal c.2 ≤ 1 := by
  refine ⟨detectKeySelOn_majorSelf, ?_, ?_⟩
  · rw [rotateFin_zero]
    exact jsVal_correlate_self corrXx_majorProfile_pos
  · intro c hc
    obtain ⟨p, _, he⟩ := List.mem_map.mp hc
    rw [← he]
    exact jsVal_correlate_le_one _ _

/-- Witness for C5: the bound instantiated at the head candidate. -/
theorem c5_major_self_witness :
    jsVal (((selCandidates theService (profFn MAJOR_PROFILE)).getD 0
      ("", JSF.nan)).2) ≤ 1 := by
  apply c5_major_self.2.2
  have hlen0 : 0 < (selCandidates theService (profFn MAJOR_PROFILE)).length := by
    rw [selCandidates_length]
    norm_num
  rw [List.getD_eq_getElem _ _ hlen0]
  exact List.getElem_mem _

/-- C7: candidate selection keeps the first-encountered maximum.  If
candidate i beats the initial -Infinity, strictly beats every earlier
candidate, and no later candidate strictly beats it — in particular on a
tie — then the scan returns the name of candidate i: a later candidate
replaces the running best only when its score is strictly greater, and the
evaluation order (12 major rotations with ascending tonic, then 12 minor
rotations) is fixed by the candidate list. -/
theorem c7_first_max (chroma : Fin 12 → ℚ) (i : ℕ)
    (h : i < (selCandidates theService chroma).length)
    (h1 : jsGT ((selCandidates theService chroma).get ⟨i, h⟩).2 JSF.ninf
      = true)
    (h2 : ∀ c ∈ (selCandidates theService chroma).take i,
      jsGT ((selCandidates theService chroma).get ⟨i, h⟩).2 c.2 = true)
    (h3 : ∀ c ∈ (selCandidates theService chroma).drop (i + 1),
      jsGT c.2 ((selCandidates theService chroma).get ⟨i, h⟩).2 = false) :
    detectKeySelOn theService chroma =
      ((selCandidates theService chroma).get ⟨i, h⟩).1 :=
  runSel_first _ i h h1 h2 h3

/-- Witness for C7 at chroma = major profile, i = 0. -/
theorem c7_first_max_witness :
    detectKeySelOn theService (profFn MAJOR_PROFILE) =
      ((selCandidates theService (profFn MAJOR_PROFILE)).get
        ⟨0, by rw [selCandidates_length]; norm_num⟩).1 := by
  have hlen0 : 0 < (selCandidates theService (profFn MAJOR_PROFILE)).length := by
    rw [selCandidates_length]
    norm_num
  have hhead := selCandidates_head (profFn MAJOR_PROFILE) hlen0
  apply c7_first_max (profFn MAJOR_PROFILE) 0 hlen0
  · rw [hhead]
    exact majSelf_beats_ninf
  · intro c hc
    simp at hc
  · intro c hc
    rw [hhead]
    exact majSelf_no_beat c hc

/-- C1 amended: detectKey always returns "Unknown", or one of the 24 key
names, or the empty string; a candidate whose correlation is NaN (the
guarded zero-denominator case) is never the selected one — when the scan
returns a candidate name, the score of that candidate is not NaN — but when every
candidate is NaN the scan returns the empty string rather than "Unknown"
(see the counterexample). -/
theorem c1_output_shape (cf : List ℚ → Option (Fin 12 → ℚ))
    (buf : AudioBuffer) :
    (detectKey cf buf = "Unknown" ∨ detectKey cf buf = "" ∨
      detectKey cf buf ∈ keyNameList) ∧
    (∀ chroma : Fin 12 → ℚ, ∀ c ∈ selCandidates theService chroma,
      detectKeySelOn theService chroma = c.1 → c.2 ≠ JSF.nan) := by
  constructor
  · simp only [detectKey, KeyDetectorService.detectKey]
    by_cases h : (keyAccum cf buf).2 = 0
    · rw [if_pos h]
      left
      rfl
    · rw [if_neg h]
      right
      rcases foldl_selStep_cases
          (selCandidates theService fun k =>
            (keyAccum cf buf).1 k / ((keyAccum cf buf).2 : ℚ))
          (JSF.ninf, "") with he | ⟨c, hc, he, _⟩
      · left
        unfold detectKeySelOn runSel
        rw [he]
      · right
        unfold detectKeySelOn runSel
        rw [he]
        have hmem := List.mem_map_of_mem Prod.fst hc
        rw [selCandidates_map_fst] at hmem
        exact hmem
  · intro chroma c hcmem heq hnan
    rcases foldl_selStep_cases (selCandidates theService chroma)
        (JSF.ninf, "") with he | ⟨c', hc', he, hn⟩
    · have hsel : detectKeySelOn theService chroma = "" := by
        unfold detectKeySelOn runSel
        rw [he]
      have hmem : c.1 ∈ keyNameList := by
        have h1 := List.mem_map_of_mem Prod.fst hcmem
        rw [selCandidates_map_fst] at h1
        exact h1
      have hce : c.1 = "" := heq.symm.trans hsel
      rw [hce] at hmem
      exact empty_not_mem_keyNames hmem
    · have hsel : detectKeySelOn theService chroma = c'.1 := by
        unfold detectKeySelOn runSel
        rw [he]
      have hcc : c.1 = c'.1 := heq.symm.trans hsel
      have hnodup : ((selCandidates theService chroma).map Prod.fst).Nodup := by
        rw [selCandidates_map_fst]
        exact keyNameList_nodup
      have hccc : c = c' := List.inj_on_of_nodup_map hnodup hcmem hc' hcc
      rw [hccc] at hnan
      exact hn hnan

/-- Witness for C1: applying the never-selected clause to the winning
candidate for the major-profile chroma. -/
theorem c1_output_shape_witness :
    (((selCandidates theService (profFn MAJOR_PROFILE)).getD 0
      ("", JSF.nan)).2) ≠ JSF.nan := by
  have hlen0 : 0 < (selCandidates theService (profFn MAJOR_PROFILE)).length := by
    rw [selCandidates_length]
    norm_num
  have hhead := selCandidates_head (profFn MAJOR_PROFILE) hlen0
  rw [List.get_eq_getElem] at hhead
  have hgetD : (selCandidates theService (profFn MAJOR_PROFILE)).getD 0
      ("", JSF.nan) = ("C Major",
        correlate (profFn MAJOR_PROFILE) (profFn MAJOR_PROFILE)) := by
    rw [List.getD_eq_getElem _ _ hlen0]
    exact hhead
  apply (c1_output_shape noneCf bufEmpty).2 (profFn MAJOR_PROFILE) _ ?_ ?_
  · rw [List.getD_eq_getElem _ _ hlen0]
    exact List.getElem_mem _
  · rw [hgetD, detectKeySelOn_majorSelf]

theorem buf4097_len : buf4097.channel0.length = 4097 := by
  simp only [buf4097, List.length_replicate]

theorem safeStart_buf4097 : safeStart buf4097 = 0 := by
  have hdur : durationQ buf4097 = 4097 / 1000 := by
    simp only [durationQ, buf4097_len, buf4097]
    norm_num
  have hdta : durationToAnalyze buf4097 = 4097 / 1000 := by
    simp only [durationToAnalyze, hdur]
    norm_num
  simp only [safeStart, startSample, hdur, hdta]
  norm_num

theorem endSampleQ_buf4097 : endSampleQ buf4097 = 4097 := by
  have hdta : durationToAnalyze buf4097 = 4097 / 1000 := by
    simp only [durationToAnalyze, durationQ, buf4097_len, buf4097]
    norm_num
  have hsr : buf4097.sampleRate = 1000 := rfl
  unfold endSampleQ
  rw [safeStart_buf4097, hdta, hsr, buf4097_len]
  norm_num

theorem keyAccum_buf4097 :
    keyAccum zeroCf buf4097 = (fun _ => (0 : ℚ) + 0, 1) := by
  simp only [keyAccum, buf4097_len, endSampleQ_buf4097, safeStart_buf4097,
    Int.toNat_zero]
  rw [keyLoop]
  rw [if_pos (by norm_num : ((0 : ℕ) : ℚ) < 4097 - 4096)]
  have hchunk : ¬ (((buf4097.channel0.drop 0).take 4096).length < 4096) := by
    rw [List.length_take, List.length_drop, buf4097_len]
    norm_num
  simp only [if_neg hchunk, zeroCf]
  rw [keyLoop_stop _ _ _ _ _ _ _ (by norm_num : ¬ (((0 + 8192 : ℕ) : ℚ) <
    4097 - 4096))]

/-- C1 counterexample: a 4097-sample buffer whose chroma extraction yields
the all-zero (constant) vector makes every candidate correlation NaN, so no
candidate is ever selected and detectKey returns the empty string — which is
neither a key name of the form "<PitchClass> <Major|Minor>" nor the sentinel
"Unknown". -/
theorem c1_empty_string_cex :
    detectKey zeroCf buf4097 = "" ∧ "" ∉ keyNameList ∧ "" ≠ "Unknown" := by
  refine ⟨?_, empty_not_mem_keyNames, by decide⟩
  simp only [detectKey, KeyDetectorService.detectKey, keyAccum_buf4097]
  rw [if_neg (by norm_num)]
  exact detectKeySelOn_const _ fun i j => rfl
